import Mathlib

/-!
Verification development for the docx paragraph tooling.

Strings are modelled as `List Char`.  The embedded functions mirror the
TypeScript utility module: `normalizeParagraphs`, `checkNumbering`,
`renumberHierarchical`, `compareParagraphSets`, `findParagraphByItemNumber`
and the HTML list walker (`extractParagraphsFromHtml` with its inner
`processOl` and `walk`).  Regular-expression matching in the source is
embedded as deterministic parsers; the determinisation is justified case by
case (the patterns involved admit no extra matches through backtracking).
Numbers are modelled as `Nat`/`Int`; the JavaScript `NaN` value produced by
`parseInt` on malformed input is modelled by `Option Int` with `none` playing
the role of `NaN`.
-/

namespace DocxWiz

/-- Whitespace predicate for the JavaScript regular-expression class `\s`
and for `String.prototype.trim` (ECMA-262 WhiteSpace plus LineTerminator). -/
def isWs (c : Char) : Bool :=
  decide (c.toNat = 9 ∨ c.toNat = 10 ∨ c.toNat = 11 ∨ c.toNat = 12 ∨
    c.toNat = 13 ∨ c.toNat = 32 ∨ c.toNat = 160 ∨ c.toNat = 0x1680 ∨
    (0x2000 ≤ c.toNat ∧ c.toNat ≤ 0x200a) ∨ c.toNat = 0x2028 ∨
    c.toNat = 0x2029 ∨ c.toNat = 0x202f ∨ c.toNat = 0x205f ∨
    c.toNat = 0x3000 ∨ c.toNat = 0xfeff)

/-- Line-terminator characters, the characters NOT matched by the
JavaScript regular-expression metacharacter `.` . -/
def isNL (c : Char) : Bool :=
  decide (c.toNat = 10 ∨ c.toNat = 13 ∨ c.toNat = 0x2028 ∨ c.toNat = 0x2029)

/-- Decimal digit predicate for the regular-expression class `\d`. -/
def isDigit (c : Char) : Bool :=
  decide (48 ≤ c.toNat ∧ c.toNat ≤ 57)

/-- Numeric value of a decimal digit character. -/
def digitVal (c : Char) : Nat := c.toNat - 48

/-- Value of a string of decimal digits, as computed by `parseInt(s, 10)`
on a well-formed digit string. -/
def digitsToNat (l : List Char) : Nat :=
  l.foldl (fun a c => 10 * a + digitVal c) 0

/-- Character for a decimal digit value. -/
def digitChar (d : Nat) : Char := Char.ofNat (48 + d)

/-- Fuel-driven decimal rendering of a positive number, most significant
digit first (the recursion divides by 10 each step, so `fuel = n` is always
enough for `n ≥ 1`). -/
def natDigitsAux : Nat → Nat → List Char
  | 0, _ => []
  | _ + 1, 0 => []
  | fuel + 1, n + 1 => natDigitsAux fuel ((n + 1) / 10) ++ [digitChar ((n + 1) % 10)]

/-- Decimal rendering of a natural number, as JavaScript
`Number.prototype.toString` produces for a non-negative integer. -/
def natDigits (n : Nat) : List Char :=
  if n = 0 then ['0'] else natDigitsAux n n

/-- Model of `s.replace(/\s+/g, " ")`: every maximal run of whitespace is
replaced by a single space character. -/
def collapseWs : List Char → List Char
  | [] => []
  | [c] => if isWs c then [' '] else [c]
  | a :: b :: rest =>
    if isWs a then
      if isWs b then collapseWs (b :: rest) else ' ' :: collapseWs (b :: rest)
    else a :: collapseWs (b :: rest)

/-- Model of `String.prototype.trimStart`. -/
def trimLeft (l : List Char) : List Char := l.dropWhile isWs

/-- Model of `String.prototype.trimEnd`, written structurally: trailing
whitespace is dropped. -/
def trimRight : List Char → List Char
  | [] => []
  | c :: cs =>
    match trimRight cs with
    | [] => if isWs c then [] else [c]
    | r => c :: r

/-- Model of `String.prototype.trim`. -/
def jsTrim (l : List Char) : List Char := trimRight (trimLeft l)

/-- Model of the ubiquitous `s.replace(/\s+/g, " ").trim()` normalization. -/
def normStr (l : List Char) : List Char := jsTrim (collapseWs l)

/-- Model of `normalizeParagraphs`: normalize every entry, keep the
non-empty ones, preserving order. -/
def normalizeParagraphs (paragraphs : List (List Char)) : List (List Char) :=
  (paragraphs.map normStr).filter fun p => decide (0 < p.length)

/-- No two adjacent characters of the list are both whitespace. -/
def noAdjWs : List Char → Bool
  | [] => true
  | [_] => true
  | a :: b :: rest => (!(isWs a && isWs b)) && noAdjWs (b :: rest)

/-- Every whitespace character of the list is a plain space. -/
def allWsSp (l : List Char) : Prop := ∀ c ∈ l, isWs c = true → c = ' '

/-- Record reported by the numbering checker, mirroring the
`NumberingIssue` interface. -/
structure NumberingIssue where
  index : Nat
  found : Nat
  expected : Nat
  text : List Char
deriving DecidableEq

/-- Deterministic embedding of the test `p.match(/^\s*(\d+)[\.)]\s+/)` used
by `checkNumbering`, returning `parseInt` of the captured digit group.  The
pattern admits no successful backtracking beyond the greedy parse: `\s*` and
`\d+` cannot trade characters (digits are not whitespace), and shortening
`\d+` leaves a digit where `[\.)]` or `\s` is required. -/
def matchFlat (l : List Char) : Option Nat :=
  let l1 := l.dropWhile isWs
  let ds := l1.takeWhile isDigit
  match ds, l1.dropWhile isDigit with
  | [], _ => none
  | _ :: _, c :: w :: _ =>
    if (c = '.' ∨ c = ')') ∧ isWs w = true then some (digitsToNat ds) else none
  | _ :: _, _ => none

/-- Loop of `checkNumbering`: `expected` and the running paragraph index are
threaded through the scan; issues are produced in order. -/
def checkNumberingAux : Nat → Nat → List (List Char) → List NumberingIssue
  | _, _, [] => []
  | expected, i, p :: ps =>
    match matchFlat p with
    | none => checkNumberingAux expected (i + 1) ps
    | some found =>
      if found = expected then checkNumberingAux (expected + 1) (i + 1) ps
      else ⟨i, found, expected, p⟩ :: checkNumberingAux (found + 1) (i + 1) ps

/-- Model of `checkNumbering`: scan with `expected` starting at 1. -/
def checkNumbering (paragraphs : List (List Char)) : List NumberingIssue :=
  checkNumberingAux 1 0 paragraphs

/-- Specification-side step for the numbering checker, written from the
spec's words: on a matching paragraph either increment `expected` or append
exactly one issue and resynchronize to `found + 1`; non-matching paragraphs
leave the state untouched. -/
def checkStepSpec (st : Nat × List NumberingIssue) (ip : Nat × List Char) :
    Nat × List NumberingIssue :=
  match matchFlat ip.2 with
  | none => st
  | some found =>
    if found = st.1 then (st.1 + 1, st.2)
    else (found + 1, st.2 ++ [⟨ip.1, found, st.1, ip.2⟩])

/-- Specification-side numbering checker: a fold over the indexed paragraph
sequence starting from `expected = 1` with no issues. -/
def checkNumberingSpec (paragraphs : List (List Char)) : List NumberingIssue :=
  (paragraphs.enum.foldl checkStepSpec (1, [])).2

/-- Dot-joined decimal rendering of a number path, as the source's
dot-joining of `expected`. -/
def renderPath : List Nat → List Char
  | [] => []
  | [n] => natDigits n
  | n :: ns => natDigits n ++ '.' :: renderPath ns

/-- Greedy parse of the group `(\d+(?:\.\d+)*)` of the hierarchical pattern:
digit groups separated by dots, where a dot is consumed only when followed
by a digit; returns the parsed values and the unconsumed remainder.  Callers
pass a list starting with a digit; fuel bounds the number of groups. -/
def parseGroupsAux : Nat → List Char → List Nat × List Char
  | 0, l => ([], l)
  | fuel + 1, l =>
    let ds := l.takeWhile isDigit
    match l.dropWhile isDigit with
    | '.' :: c :: r =>
      if isDigit c then
        let pr := parseGroupsAux fuel (c :: r)
        (digitsToNat ds :: pr.1, pr.2)
      else (digitsToNat ds :: [], '.' :: c :: r)
    | r => ([digitsToNat ds], r)

/-- Deterministic embedding of
`original.match(/^\s*(\d+(?:\.\d+)*)([.)])?\s+(.*)$/)` from
`renumberHierarchical`, yielding the parsed number path (the source's
`numberingStr.split(".").map(parseInt)`), the captured delimiter (`[]`,
`['.']` or `[')']`) and the captured rest.  Greedy parsing is faithful: a
shorter `\d+` or fewer `(?:\.\d+)*` iterations always leaves a digit or dot
where whitespace is required, and since `.` does not match line terminators
while `\s` does, the match succeeds exactly when the text after the maximal
whitespace run following the marker contains no line terminator, that text
being the captured rest. -/
def matchHier (l : List Char) : Option (List Nat × List Char × List Char) :=
  let l1 := l.dropWhile isWs
  match l1 with
  | [] => none
  | c :: _ =>
    if isDigit c = true then
      let pr := parseGroupsAux l1.length l1
      match pr.2 with
      | [] => none
      | d :: r =>
        if d = '.' ∨ d = ')' then
          match r with
          | [] => none
          | w :: _ =>
            if isWs w = true then
              let rest := r.dropWhile isWs
              if rest.any isNL then none else some (pr.1, [d], rest)
            else none
        else if isWs d = true then
          let rest := (d :: r).dropWhile isWs
          if rest.any isNL then none else some (pr.1, [], rest)
        else none
    else none

/-- Computation of the corrected path `expected` from the carried path
`current` and the parsed path `found`, translated from the if/else chain in
`renumberHierarchical` (`current[k]` becomes `getD` at the always-valid
index). -/
def stepPath (current found : List Nat) : List Nat :=
  if current = [] then found
  else
    let dFound := found.length
    let dCurr := current.length
    if dFound = dCurr then
      current.take (dCurr - 1) ++ [current.getD (dCurr - 1) 0 + 1]
    else if dFound = dCurr + 1 then current ++ [1]
    else if dFound < dCurr then
      current.take (dFound - 1) ++ [current.getD (dFound - 1) 0 + 1]
    else current ++ List.replicate (dFound - dCurr) 1

/-- Loop of `renumberHierarchical`: the carried path `current` is threaded
through; matching paragraphs are rewritten as
`expected joined with "." + delim + " " + rest` with `rest` whitespace-normalized. -/
def renumberAux : List Nat → List (List Char) → List (List Char)
  | _, [] => []
  | current, p :: ps =>
    match matchHier p with
    | none => p :: renumberAux current ps
    | some (found, delim, restRaw) =>
      let expected := stepPath current found
      (renderPath expected ++ delim ++ ' ' :: normStr restRaw) ::
        renumberAux expected ps

/-- Model of `renumberHierarchical`, starting from an empty carried path. -/
def renumberHierarchical (paragraphs : List (List Char)) : List (List Char) :=
  renumberAux [] paragraphs

/-- Specification-side step for the renumberer, written from the spec's
words: same depth increments the last element, one level deeper appends 1,
shallower truncates to `dFound` elements and increments the new last, a jump
of two or more levels appends that many 1s. -/
def stepSpec (current found : List Nat) : List Nat :=
  let dF := found.length
  let dC := current.length
  if dF = dC then current.dropLast ++ [current.getLast?.getD 0 + 1]
  else if dF = dC + 1 then current ++ [1]
  else if dF < dC then
    (current.take dF).dropLast ++ [(current.take dF).getLast?.getD 0 + 1]
  else current ++ List.replicate (dF - dC) 1

/-- Normalization key used by `compareParagraphSets`:
`p.replace(/\s+/g, " ").trim().toLowerCase()` (ASCII case folding, as
applicable to the characters compared here). -/
def normKey (l : List Char) : List Char := (normStr l).map Char.toLower

/-- Result of `compareParagraphSets`. -/
structure CompareResult where
  missingInTarget : List (List Char)
  extraInTarget : List (List Char)
deriving DecidableEq

/-- Model of `compareParagraphSets`: membership of the normalized form in
the other side's normalized list (the source's `Set.has` is membership in
the set built from exactly that list). -/
def compareParagraphSets (reference target : List (List Char)) : CompareResult :=
  let a := reference.map normKey
  let b := target.map normKey
  { missingInTarget := reference.filter fun p => !(b.contains (normKey p))
    extraInTarget := target.filter fun p => !(a.contains (normKey p)) }

/-- Result of `findParagraphByItemNumber`. -/
structure ParagraphSearchResult where
  index : Int
  paragraph : List Char
deriving DecidableEq

/-- Matching condition of `findParagraphByItemNumber`: the paragraph starts
with the trimmed item number followed by a space, a dot or a closing
parenthesis, or equals it exactly. -/
def fpMatches (target p : List Char) : Bool :=
  (target ++ [' ']).isPrefixOf p || (target ++ ['.']).isPrefixOf p ||
    (target ++ [')']).isPrefixOf p || p == target

/-- Loop of `findParagraphByItemNumber` with the running index. -/
def findAux (target : List Char) : Nat → List (List Char) → ParagraphSearchResult
  | _, [] => ⟨-1, []⟩
  | i, p :: ps =>
    if fpMatches target p then ⟨(i : Int), p⟩ else findAux target (i + 1) ps

/-- Model of `findParagraphByItemNumber` (linear scan from index 0 over the
paragraphs, with the item number trimmed first). -/
def findParagraphByItemNumber (paragraphs : List (List Char))
    (itemNumber : List Char) : ParagraphSearchResult :=
  findAux (jsTrim itemNumber) 0 paragraphs

/-- Specification-side matching condition for the paragraph finder, written
from the spec's words. -/
def fpSpecCond (target p : List Char) : Prop :=
  (target ++ [' ']) <+: p ∨ (target ++ ['.']) <+: p ∨
    (target ++ [')']) <+: p ∨ p = target

instance (target p : List Char) : Decidable (fpSpecCond target p) :=
  inferInstanceAs (Decidable ((target ++ [' ']) <+: p ∨ (target ++ ['.']) <+: p ∨
    (target ++ [')']) <+: p ∨ p = target))

/-- Delimiter class of the revised finder's regular expression, the
character class containing whitespace, the dot and the closing
parenthesis. -/
def isTermDelim (c : Char) : Bool := isWs c || decide (c = '.') || decide (c = ')')

/-- Deterministic embedding of the revised finder's test: the regular
expression built from `"^\s*"`, the regex-escaped search term and the
delimiter class repeated at least once, compiled with the case-insensitive
flag, applied by `test` to the paragraph.  The escaped term is matched
literally; because the term is trimmed, its first character is not
whitespace, so the literal can only start right after the maximal leading
whitespace run and backtracking admits no other match.  An empty term
degenerates to requiring that the paragraph start with a character of the
delimiter class.  Case folding is ASCII, as elsewhere in this
development. -/
def regexTest2 (t p : List Char) : Bool :=
  match t with
  | [] =>
    match p with
    | [] => false
    | c :: _ => isTermDelim c
  | _ :: _ =>
    let q := p.dropWhile isWs
    t.isPrefixOf (q.map Char.toLower) &&
      (match q.drop t.length with
       | [] => false
       | c :: _ => isTermDelim c)

/-- Loop of the revised finder: per paragraph, first the regular-expression
test, then the bare case-insensitive prefix fallback
(`paragraph.toLowerCase().startsWith(searchTerm)`); the first hit wins. -/
def findAux2 (t : List Char) : Nat → List (List Char) → ParagraphSearchResult
  | _, [] => ⟨-1, []⟩
  | i, p :: ps =>
    if regexTest2 t p || t.isPrefixOf (p.map Char.toLower) then ⟨(i : Int), p⟩
    else findAux2 t (i + 1) ps

/-- Model of the second, revised copy of `findParagraphByItemNumber` that
the repository also contains: the search term is trimmed and lower-cased
(`itemNumber.trim().toLowerCase()`), then the paragraphs are scanned with
`findAux2` from index 0. -/
def findParagraphByItemNumberRev (paragraphs : List (List Char))
    (itemNumber : List Char) : ParagraphSearchResult :=
  findAux2 ((jsTrim itemNumber).map Char.toLower) 0 paragraphs

/-- JavaScript number restricted to the values arising in the walker:
`none` models `NaN`, `some i` an integer. -/
abbrev JsNum := Option Int

/-- Addition on walker counters; `NaN` propagates. -/
def jsAdd (a : JsNum) (k : Int) : JsNum := a.map (· + k)

/-- Digit-run part of `parseInt`: value of the leading digits, `NaN` when
there are none. -/
def parseIntDigits (r : List Char) : Option Nat :=
  let ds := r.takeWhile isDigit
  if ds.isEmpty then none else some (digitsToNat ds)

/-- Model of `parseInt(s, 10)`: skip leading whitespace, optional sign,
then the value of the leading digit run; `NaN` (here `none`) when no digits
follow. -/
def parseIntJS (s : List Char) : JsNum :=
  match s.dropWhile isWs with
  | '-' :: r => (parseIntDigits r).map fun n => -(n : Int)
  | '+' :: r => (parseIntDigits r).map fun n => (n : Int)
  | r => (parseIntDigits r).map fun n => (n : Int)

/-- Model of `attr ? parseInt(attr, 10) : dflt`: an absent or empty (falsy)
attribute string yields the default. -/
def attrOr (a : Option (List Char)) (dflt : JsNum) : JsNum :=
  match a with
  | none => dflt
  | some s => if s = [] then dflt else parseIntJS s

/-- Rendering of a walker counter as JavaScript string interpolation does:
`NaN` prints as "NaN", negative integers with a leading minus sign. -/
def renderJs : JsNum → List Char
  | none => ['N', 'a', 'N']
  | some i => if i < 0 then '-' :: natDigits i.natAbs else natDigits i.natAbs

/-- Dot-joined rendering of a walker number path, as the dot-joining in the source. -/
def renderJsPath : List JsNum → List Char
  | [] => []
  | [x] => renderJs x
  | x :: xs => renderJs x ++ '.' :: renderJsPath xs

/-- Markup tree consumed by the walker: text nodes and elements with a
(lower-cased) tag, the two optional attributes the code reads (`start` and
`value`), and children. -/
inductive HNode where
  | text (s : List Char)
  | elem (tag : List Char) (startA valueA : Option (List Char)) (children : List HNode)

def tagP : List Char := ['p']

def tagOl : List Char := ['o', 'l']

def tagUl : List Char := ['u', 'l']

def tagLi : List Char := ['l', 'i']

def nodeTag : HNode → List Char
  | .text _ => []
  | .elem t _ _ _ => t

def nodeStart : HNode → Option (List Char)
  | .text _ => none
  | .elem _ s _ _ => s

def nodeValue : HNode → Option (List Char)
  | .text _ => none
  | .elem _ _ v _ => v

def isElem : HNode → Bool
  | .text _ => false
  | .elem _ _ _ _ => true

def nodeChildren : HNode → List HNode
  | .text _ => []
  | .elem _ _ _ cs => cs

/-- The `.children` collection of the DOM: element children only. -/
def elemChildren (n : HNode) : List HNode := (nodeChildren n).filter isElem

/-- Model of `querySelectorAll(":scope > tag")`: direct element children
with the given tag, in document order. -/
def childTag (t : List Char) (n : HNode) : List HNode :=
  (elemChildren n).filter fun c => decide (nodeTag c = t)

/-- Model of `Node.textContent` (concatenated text of the subtree), driven
by fuel bounding the tree depth. -/
def textContentF : Nat → HNode → List Char
  | 0, _ => []
  | _ + 1, .text s => s
  | f + 1, .elem _ _ _ cs => (cs.map (textContentF f)).flatten

/-- Text of a subtree with every `ol`/`ul` descendant subtree removed, as
`liMainText` obtains via cloning and `querySelectorAll("ol, ul").remove()`. -/
def mainTextF : Nat → HNode → List Char
  | 0, _ => []
  | _ + 1, .text s => s
  | f + 1, .elem t _ _ cs =>
    if t = tagOl ∨ t = tagUl then [] else (cs.map (mainTextF f)).flatten

/-- Model of `liMainText`: normalized text of the item without its nested
lists. -/
def liMainText (fuel : Nat) (li : HNode) : List Char := normStr (mainTextF fuel li)

/-- Loop of `processOl` over the list children: per `li` child (others are
skipped without touching the counter), compute the assigned number, emit the
numbered main text when non-empty, recurse into direct `ol` children via
`pOl`, then emit direct `ul > li` grandchildren as plain paragraphs. -/
def olLoop (fuel : Nat) (pOl : HNode → List JsNum → List (List Char)) :
    List HNode → JsNum → List JsNum → List (List Char)
  | [], _, _ => []
  | li :: rest, counter, stack =>
    if nodeTag li = tagLi then
      let current := attrOr (nodeValue li) (jsAdd counter 1)
      let t := liMainText fuel li
      (if t = [] then [] else [renderJsPath (stack ++ [current]) ++ ' ' :: t]) ++
        ((childTag tagOl li).map fun childOl => pOl childOl (stack ++ [current])).flatten ++
        (((childTag tagUl li).map fun ul => childTag tagLi ul).flatten.map fun subLi =>
          normStr (textContentF fuel subLi)).filter (fun b => !b.isEmpty) ++
        olLoop fuel pOl rest current stack
    else olLoop fuel pOl rest counter stack

/-- Model of `processOl`: the counter starts at the `start` attribute when
present (else 1) minus one, and the items are processed in order. -/
def processOl : Nat → HNode → List JsNum → List (List Char)
  | 0, _, _ => []
  | f + 1, ol, stack =>
    olLoop (f + 1) (fun n st => processOl f n st) (elemChildren ol)
      (jsAdd (attrOr (nodeStart ol) (some 1)) (-1)) stack

/-- Model of `walk`: dispatch on the tag of each element child. -/
def walk : Nat → HNode → List (List Char)
  | 0, _ => []
  | f + 1, root =>
    ((elemChildren root).map fun el =>
      if nodeTag el = tagP then
        (let t := normStr (textContentF (f + 1) el)
         if t = [] then [] else [t])
      else if nodeTag el = tagOl then processOl (f + 1) el []
      else if nodeTag el = tagUl then
        ((childTag tagLi el).map fun li =>
          (let t := liMainText (f + 1) li
           if t = [] then [] else [t]) ++
            ((childTag tagOl li).map fun childOl => processOl (f + 1) childOl []).flatten ++
            ((childTag tagUl li).map fun childUl => walk f childUl).flatten).flatten
      else walk f el).flatten

/-- Model of `extractParagraphsFromHtml` applied to the parsed container. -/
def extractParagraphs (fuel : Nat) (root : HNode) : List (List Char) :=
  walk fuel root

/-- A list item carrying only a text node, with no attributes. -/
def liSimple (t : List Char) : HNode := HNode.elem tagLi none none [HNode.text t]

/-- Specification-side numbering synthesis for a run of plain list items,
written from the spec's words: each item receives the next running integer,
its path is the parent prefix plus that integer, rendered dot-joined and
prepended to the normalized main text, emitted only when that text is
non-empty. -/
def simpleNumsSpec (stack : List JsNum) : Int → List (List Char) → List (List Char)
  | _, [] => []
  | k, t :: ts =>
    (if normStr t = [] then [] else
      [renderJsPath (stack ++ [some (k + 1)]) ++ ' ' :: normStr t]) ++
      simpleNumsSpec stack (k + 1) ts

theorem noAdjWs_tail {x : Char} {l : List Char}
    (h : noAdjWs (x :: l) = true) : noAdjWs l = true := by
  cases l with
  | nil => rfl
  | cons b r => simp only [noAdjWs, Bool.and_eq_true] at h; exact h.2

theorem noAdjWs_cons {x : Char} {l : List Char}
    (hl : noAdjWs l = true)
    (hx : ∀ h, l.head? = some h → ¬(isWs x = true ∧ isWs h = true)) :
    noAdjWs (x :: l) = true := by
  cases l with
  | nil => rfl
  | cons b r =>
    have := hx b rfl
    simp only [noAdjWs, Bool.and_eq_true, Bool.not_eq_true', Bool.and_eq_false_iff]
    refine ⟨?_, hl⟩
    by_cases hwx : isWs x = true
    · by_cases hwb : isWs b = true
      · exact absurd ⟨hwx, hwb⟩ this
      · right; simpa using hwb
    · left; simpa using hwx

theorem allWsSp_collapseWs : ∀ l : List Char, allWsSp (collapseWs l)
  | [] => by intro c hc; simp [collapseWs] at hc
  | [a] => by
    intro c hc hw
    by_cases h : isWs a = true <;> simp [collapseWs, h] at hc
    · exact hc
    · subst hc; exact absurd hw (by simpa using h)
  | a :: b :: rest => by
    intro c hc hw
    have ih := allWsSp_collapseWs (b :: rest)
    by_cases ha : isWs a = true
    · by_cases hb : isWs b = true
      · exact ih c (by simpa [collapseWs, ha, hb] using hc) hw
      · rcases (by simpa [collapseWs, ha, hb] using hc : c = ' ' ∨ c ∈ collapseWs (b :: rest)) with h | h
        · exact h
        · exact ih c h hw
    · rcases (by simpa [collapseWs, ha] using hc : c = a ∨ c ∈ collapseWs (b :: rest)) with h | h
      · subst h; exact absurd hw (by simpa using ha)
      · exact ih c h hw

theorem head?_collapseWs : ∀ (c : Char) (l : List Char),
    (collapseWs (c :: l)).head? = some (if isWs c then ' ' else c)
  | c, [] => by by_cases h : isWs c = true <;> simp [collapseWs, h]
  | c, b :: l => by
    by_cases hc : isWs c = true
    · by_cases hb : isWs b = true
      · have := head?_collapseWs b l
        simp [collapseWs, hc, hb] at this ⊢
        simpa [hb] using this
      · simp [collapseWs, hc, hb]
    · simp [collapseWs, hc]

theorem noAdjWs_collapseWs : ∀ l : List Char, noAdjWs (collapseWs l) = true
  | [] => rfl
  | [a] => by by_cases h : isWs a = true <;> simp [collapseWs, h, noAdjWs]
  | a :: b :: rest => by
    have ih := noAdjWs_collapseWs (b :: rest)
    have hhead := head?_collapseWs b rest
    by_cases ha : isWs a = true
    · by_cases hb : isWs b = true
      · simpa [collapseWs, ha, hb] using ih
      · simp only [collapseWs, ha, hb, if_true, if_false]
        refine noAdjWs_cons ih ?_
        intro h hh
        rw [hhead] at hh
        simp [hb] at hh
        subst hh
        intro hcon
        exact absurd hcon.2 (by simpa using hb)
    · simp only [collapseWs, ha, if_false]
      refine noAdjWs_cons ih ?_
      intro h hh hcon
      exact absurd hcon.1 (by simpa using ha)

theorem noAdjWs_dropWhile {p : Char → Bool} :
    ∀ {l : List Char}, noAdjWs l = true → noAdjWs (l.dropWhile p) = true
  | [], h => h
  | a :: l, h => by
    by_cases hp : p a = true
    · simpa [List.dropWhile, hp] using noAdjWs_dropWhile (noAdjWs_tail h)
    · simpa [List.dropWhile, hp] using h

theorem allWsSp_dropWhile {p : Char → Bool} {l : List Char}
    (h : allWsSp l) : allWsSp (l.dropWhile p) := by
  intro c hc
  exact h c ((List.dropWhile_sublist (p := p) (l := l)).mem hc)

theorem trimRight_eq_append : ∀ l : List Char, ∃ t, l = trimRight l ++ t
  | [] => ⟨[], rfl⟩
  | c :: cs => by
    obtain ⟨t, ht⟩ := trimRight_eq_append cs
    cases hr : trimRight cs with
    | nil =>
      by_cases hw : isWs c = true
      · exact ⟨c :: cs, by simp [trimRight, hr, hw]⟩
      · refine ⟨cs, ?_⟩
        simp [trimRight, hr, hw]
    | cons x xs =>
      refine ⟨t, ?_⟩
      have : c :: cs = c :: (trimRight cs ++ t) := by rw [← ht]
      simpa [trimRight, hr] using this

theorem noAdjWs_of_append : ∀ {xs t : List Char}, noAdjWs (xs ++ t) = true →
    noAdjWs xs = true
  | [], _, _ => rfl
  | [a], _, _ => rfl
  | a :: b :: r, t, h => by
    simp only [List.cons_append, noAdjWs, Bool.and_eq_true] at h ⊢
    exact ⟨h.1, noAdjWs_of_append (by simpa using h.2)⟩

theorem allWsSp_of_append {xs t : List Char} (h : allWsSp (xs ++ t)) :
    allWsSp xs := fun c hc => h c (by simp [hc])

theorem noAdjWs_trimRight {l : List Char} (h : noAdjWs l = true) :
    noAdjWs (trimRight l) = true := by
  obtain ⟨t, ht⟩ := trimRight_eq_append l
  rw [ht] at h
  exact noAdjWs_of_append h

theorem allWsSp_trimRight {l : List Char} (h : allWsSp l) :
    allWsSp (trimRight l) := by
  obtain ⟨t, ht⟩ := trimRight_eq_append l
  rw [ht] at h
  exact allWsSp_of_append h

theorem head?_trimRight {l : List Char} {c : Char}
    (h : (trimRight l).head? = some c) : l.head? = some c := by
  obtain ⟨t, ht⟩ := trimRight_eq_append l
  rw [ht]
  cases hr : trimRight l with
  | nil => rw [hr] at h; simp at h
  | cons x xs => rw [hr] at h; simp at h; simp [h]

theorem head?_dropWhile_not {p : Char → Bool} :
    ∀ {l : List Char} {c : Char}, (l.dropWhile p).head? = some c → p c = false
  | [], c, h => by simp [List.dropWhile] at h
  | a :: l, c, h => by
    by_cases hp : p a = true
    · exact head?_dropWhile_not (by simpa [List.dropWhile, hp] using h)
    · simp [List.dropWhile, hp] at h
      subst h
      simpa using hp

theorem getLast?_trimRight_not_ws :
    ∀ {l : List Char} {c : Char}, (trimRight l).getLast? = some c → isWs c = false
  | [], c, h => by simp [trimRight] at h
  | x :: cs, c, h => by
    cases hr : trimRight cs with
    | nil =>
      rw [trimRight, hr] at h
      by_cases hw : isWs x = true
      · simp [hw] at h
      · simp [hw] at h
        subst h
        simpa using hw
    | cons y ys =>
      rw [trimRight, hr] at h
      simp only [List.getLast?_cons_cons] at h
      exact getLast?_trimRight_not_ws (l := cs) (by rw [hr]; exact h)

theorem collapseWs_fixed : ∀ {l : List Char}, noAdjWs l = true → allWsSp l →
    collapseWs l = l
  | [], _, _ => rfl
  | [a], _, hsp => by
    by_cases hw : isWs a = true
    · have := hsp a (by simp) hw
      simp [collapseWs, hw, this]
    · simp [collapseWs, hw]
  | a :: b :: rest, hadj, hsp => by
    have htail : noAdjWs (b :: rest) = true := noAdjWs_tail hadj
    have hsp' : allWsSp (b :: rest) := fun c hc => hsp c (by simp [hc])
    have ih := collapseWs_fixed htail hsp'
    by_cases ha : isWs a = true
    · have hb : isWs b = false := by
        simp only [noAdjWs, Bool.and_eq_true, Bool.not_eq_true',
          Bool.and_eq_false_iff] at hadj
        rcases hadj.1 with h | h
        · exact absurd ha (by simp [h])
        · exact h
      have haa := hsp a (by simp) ha
      simp [collapseWs, ha, hb, ih, haa]
    · simp [collapseWs, ha, ih]

theorem dropWhile_ws_fixed {l : List Char}
    (h : ∀ c, l.head? = some c → isWs c = false) : l.dropWhile isWs = l := by
  cases l with
  | nil => rfl
  | cons a r => simp [List.dropWhile, h a rfl]

theorem trimRight_fixed : ∀ {l : List Char},
    (∀ c, l.getLast? = some c → isWs c = false) → trimRight l = l
  | [], _ => rfl
  | c :: cs, h => by
    cases cs with
    | nil =>
      have := h c (by simp)
      simp [trimRight, this]
    | cons d r =>
      have ih := trimRight_fixed (l := d :: r) (fun x hx => h x (by
        simpa [List.getLast?_cons_cons] using hx))
      rw [trimRight, ih]

theorem allWsSp_normStr (l : List Char) : allWsSp (normStr l) :=
  allWsSp_trimRight (allWsSp_dropWhile (allWsSp_collapseWs l))

theorem noAdjWs_normStr (l : List Char) : noAdjWs (normStr l) = true :=
  noAdjWs_trimRight (noAdjWs_dropWhile (noAdjWs_collapseWs l))

theorem head?_normStr_not_ws {l : List Char} {c : Char}
    (h : (normStr l).head? = some c) : isWs c = false :=
  head?_dropWhile_not (head?_trimRight h)

theorem getLast?_normStr_not_ws {l : List Char} {c : Char}
    (h : (normStr l).getLast? = some c) : isWs c = false :=
  getLast?_trimRight_not_ws h

theorem normStr_idem (l : List Char) : normStr (normStr l) = normStr l := by
  have h1 : collapseWs (normStr l) = normStr l :=
    collapseWs_fixed (noAdjWs_normStr l) (allWsSp_normStr l)
  have h2 : (normStr l).dropWhile isWs = normStr l :=
    dropWhile_ws_fixed fun c hc => head?_normStr_not_ws hc
  have h3 : trimRight (normStr l) = normStr l :=
    trimRight_fixed fun c hc => getLast?_normStr_not_ws hc
  show jsTrim (collapseWs (normStr l)) = normStr l
  rw [h1]
  show trimRight (trimLeft (normStr l)) = normStr l
  rw [trimLeft, h2, h3]

theorem normStr_length_pos_idem {l : List Char} :
    0 < (normStr l).length → 0 < (normStr (normStr l)).length := by
  rw [normStr_idem]; exact id

/-- C9 helper: one unfolding step of `normalizeParagraphs`. -/
theorem normalizeParagraphs_cons (p : List Char) (ps : List (List Char)) :
    normalizeParagraphs (p :: ps) =
      (if 0 < (normStr p).length then [normStr p] else []) ++
        normalizeParagraphs ps := by
  by_cases h : 0 < (normStr p).length <;>
    simp [normalizeParagraphs, List.filter_cons, h]

theorem isDigit_not_ws {c : Char} (h : isDigit c = true) : isWs c = false := by
  simp only [isDigit, decide_eq_true_eq] at h
  simp only [isWs, decide_eq_false_iff_not]
  omega

theorem isNL_isWs {c : Char} (h : isNL c = true) : isWs c = true := by
  simp only [isNL, decide_eq_true_eq] at h
  simp only [isWs, decide_eq_true_eq]
  omega

theorem any_isNL_of_allWsSp {l : List Char} (h : allWsSp l) :
    l.any isNL = false := by
  rw [List.any_eq_false]
  intro c hc hNL
  have hsp := h c hc (isNL_isWs hNL)
  subst hsp
  exact absurd hNL (by decide)

theorem digitVal_digitChar {d : Nat} (h : d < 10) :
    digitVal (digitChar d) = d := by
  interval_cases d <;> decide

theorem isDigit_digitChar {d : Nat} (h : d < 10) :
    isDigit (digitChar d) = true := by
  interval_cases d <;> decide

theorem natDigitsAux_all_digit :
    ∀ (fuel n : Nat), ∀ c ∈ natDigitsAux fuel n, isDigit c = true := by
  intro fuel
  induction fuel with
  | zero => intro n c hc; simp [natDigitsAux] at hc
  | succ f ih =>
    intro n c hc
    cases n with
    | zero => simp [natDigitsAux] at hc
    | succ m =>
      simp only [natDigitsAux, List.mem_append, List.mem_singleton] at hc
      rcases hc with h | h
      · exact ih _ c h
      · subst h; exact isDigit_digitChar (Nat.mod_lt _ (by norm_num))

theorem natDigits_all_digit (n : Nat) : ∀ c ∈ natDigits n, isDigit c = true := by
  intro c hc
  by_cases h : n = 0
  · subst h
    simp [natDigits] at hc
    subst hc; decide
  · rw [natDigits, if_neg h] at hc
    exact natDigitsAux_all_digit n n c hc

theorem natDigits_ne_nil (n : Nat) : natDigits n ≠ [] := by
  by_cases h : n = 0
  · subst h; simp [natDigits]
  · obtain ⟨m, rfl⟩ := Nat.exists_eq_succ_of_ne_zero h
    simp [natDigits, natDigitsAux]

theorem digitsToNat_append_one (xs : List Char) (c : Char) :
    digitsToNat (xs ++ [c]) = 10 * digitsToNat xs + digitVal c := by
  simp [digitsToNat, List.foldl_append]

theorem digitsToNat_natDigitsAux :
    ∀ n fuel : Nat, n ≤ fuel → digitsToNat (natDigitsAux fuel n) = n := by
  intro n
  induction n using Nat.strong_induction_on with
  | _ n ih =>
    intro fuel hf
    match n, fuel with
    | 0, 0 => rfl
    | 0, f + 1 => rfl
    | m + 1, 0 => omega
    | m + 1, f + 1 =>
      have hlt : (m + 1) / 10 < m + 1 := Nat.div_lt_self (Nat.succ_pos m) (by norm_num)
      have IH := ih ((m + 1) / 10) hlt f (by omega)
      show digitsToNat (natDigitsAux f ((m + 1) / 10) ++ [digitChar ((m + 1) % 10)]) = m + 1
      rw [digitsToNat_append_one, IH, digitVal_digitChar (Nat.mod_lt _ (by norm_num))]
      have := Nat.div_add_mod (m + 1) 10
      omega

theorem digitsToNat_natDigits (n : Nat) : digitsToNat (natDigits n) = n := by
  by_cases h : n = 0
  · subst h; decide
  · rw [natDigits, if_neg h]
    exact digitsToNat_natDigitsAux n n le_rfl

theorem takeWhile_all_append {p : Char → Bool} :
    ∀ (xs : List Char) (y : Char) (ys : List Char),
      (∀ c ∈ xs, p c = true) → p y = false →
      (xs ++ y :: ys).takeWhile p = xs ∧ (xs ++ y :: ys).dropWhile p = y :: ys := by
  intro xs
  induction xs with
  | nil =>
    intro y ys _ hy
    simp [List.takeWhile, List.dropWhile, hy]
  | cons a xs ih =>
    intro y ys hall hy
    have ha : p a = true := hall a (by simp)
    have h2 := ih y ys (fun c hc => hall c (by simp [hc])) hy
    simp [List.takeWhile_cons, List.dropWhile_cons, ha, h2.1, h2.2]

theorem natDigits_head (n : Nat) :
    ∃ c cs, natDigits n = c :: cs ∧ isDigit c = true := by
  cases h : natDigits n with
  | nil => exact absurd h (natDigits_ne_nil n)
  | cons c cs =>
    exact ⟨c, cs, rfl, natDigits_all_digit n c (h ▸ List.mem_cons_self c cs)⟩

/-- C9: `normalizeParagraphs` is idempotent: collapsing whitespace runs,
trimming and dropping empty entries a second time changes nothing. -/
theorem C9_normalizeParagraphs_idem (xs : List (List Char)) :
    normalizeParagraphs (normalizeParagraphs xs) = normalizeParagraphs xs := by
  induction xs with
  | nil => rfl
  | cons p ps ih =>
    rw [normalizeParagraphs_cons]
    by_cases h : 0 < (normStr p).length
    · rw [if_pos h, List.singleton_append, normalizeParagraphs_cons, normStr_idem,
        if_pos h, ih]
      simp
    · rw [if_neg h, List.nil_append, ih]

theorem checkAux_foldl :
    ∀ (ps : List (List Char)) (expected i : Nat) (acc : List NumberingIssue),
      (List.foldl checkStepSpec (expected, acc) (ps.enumFrom i)).2 =
        acc ++ checkNumberingAux expected i ps := by
  intro ps
  induction ps with
  | nil => intro expected i acc; simp [checkNumberingAux]
  | cons p ps ih =>
    intro expected i acc
    rw [List.enumFrom_cons, List.foldl_cons]
    cases hm : matchFlat p with
    | none =>
      rw [show checkStepSpec (expected, acc) (i, p) = (expected, acc) by
        simp [checkStepSpec, hm]]
      rw [ih, show checkNumberingAux expected i (p :: ps) =
        checkNumberingAux expected (i + 1) ps by simp [checkNumberingAux, hm]]
    | some found =>
      by_cases hfe : found = expected
      · rw [show checkStepSpec (expected, acc) (i, p) = (expected + 1, acc) by
          simp [checkStepSpec, hm, hfe]]
        rw [ih, show checkNumberingAux expected i (p :: ps) =
          checkNumberingAux (expected + 1) (i + 1) ps by
            simp [checkNumberingAux, hm, hfe]]
      · rw [show checkStepSpec (expected, acc) (i, p) =
          (found + 1, acc ++ [⟨i, found, expected, p⟩]) by simp [checkStepSpec, hm, hfe]]
        rw [ih, show checkNumberingAux expected i (p :: ps) =
          ⟨i, found, expected, p⟩ :: checkNumberingAux (found + 1) (i + 1) ps by
            simp [checkNumberingAux, hm, hfe]]
        simp

/-- C1: `checkNumbering` maintains an expected counter starting at 1 over
the paragraphs whose text matches the flat numeric marker, incrementing it
on agreement and otherwise reporting exactly one issue and resynchronizing
to `found + 1`, while non-matching paragraphs leave the state untouched
(stated as agreement with the specification-side fold); in particular the
gap input produces exactly one issue and resynchronizes. -/
theorem C1_checkNumbering :
    (∀ ps : List (List Char), checkNumbering ps = checkNumberingSpec ps) ∧
      checkNumbering ["1. a".toList, "3. b".toList, "4. c".toList] =
        [⟨1, 3, 2, "3. b".toList⟩] := by
  constructor
  · intro ps
    rw [checkNumbering, checkNumberingSpec, List.enum, checkAux_foldl]
    rfl
  · decide

theorem stepPath_eq_stepSpec (current found : List Nat) (hc : current ≠ [])
    (hf : found ≠ []) : stepPath current found = stepSpec current found := by
  have hcl : 0 < current.length := List.length_pos.mpr hc
  have hfl : 0 < found.length := List.length_pos.mpr hf
  unfold stepPath stepSpec
  rw [if_neg hc]
  by_cases h1 : found.length = current.length
  · rw [if_pos h1, if_pos h1]
    rw [List.dropLast_eq_take, List.getLast?_eq_getElem? current,
      List.getD_eq_getElem?_getD]
  · rw [if_neg h1, if_neg h1]
    by_cases h2 : found.length = current.length + 1
    · rw [if_pos h2, if_pos h2]
    · rw [if_neg h2, if_neg h2]
      by_cases h3 : found.length < current.length
      · rw [if_pos h3, if_pos h3]
        have htl : (current.take found.length).length = found.length := by
          rw [List.length_take]; omega
        rw [List.dropLast_eq_take, htl, List.take_take,
          List.getLast?_eq_getElem? (current.take found.length), htl,
          List.getD_eq_getElem?_getD,
          List.getElem?_take_of_lt (by omega : found.length - 1 < found.length)]
        congr 2
        omega
      · rw [if_neg h3, if_neg h3]

/-- C2: after the first numbered paragraph, the corrected path is computed
from the carried path and the depth of the parsed one by exactly the four
spec rules (equal depth increments the last element, one level deeper
appends 1, shallower truncates and increments, a jump of two or more levels
appends that many 1s), and the two level-jump examples behave as stated. -/
theorem C2_renumber_step_rules :
    (∀ current found : List Nat, current ≠ [] → found ≠ [] →
      stepPath current found = stepSpec current found) ∧
      renumberHierarchical ["6.1 a".toList, "6.1.1 b".toList, "6.1.1.1 c".toList] =
        ["6.1 a".toList, "6.1.1 b".toList, "6.1.1.1 c".toList] ∧
      renumberHierarchical ["6 a".toList, "6.3.5 b".toList] =
        ["6 a".toList, "6.1.1 b".toList] := by
  refine ⟨stepPath_eq_stepSpec, by decide, by decide⟩

/-- C2 witness: the jump of two levels from depth 1 follows the spec rule at
a concrete input. -/
theorem C2_renumber_step_rules_witness :
    stepPath [6] [6, 3, 5] = stepSpec [6] [6, 3, 5] :=
  C2_renumber_step_rules.1 [6] [6, 3, 5] (by decide) (by decide)

/-- C3: the first paragraph whose text matches the hierarchical pattern
(while the carried path is still empty) is accepted as-is: its corrected
path equals the parsed one. -/
theorem C3_first_match_kept :
    ∀ (front : List (List Char)) (p : List Char) (suf : List (List Char))
      (found : List Nat) (delim restRaw : List Char),
      (∀ q ∈ front, matchHier q = none) →
      matchHier p = some (found, delim, restRaw) →
      renumberHierarchical (front ++ p :: suf) =
        front ++ (renderPath found ++ delim ++ ' ' :: normStr restRaw) ::
          renumberAux found suf := by
  intro front
  induction front with
  | nil =>
    intro p suf found delim restRaw _ hp
    have hstep : stepPath [] found = found := by simp [stepPath]
    show renumberAux [] (p :: suf) = _
    simp [renumberAux, hp, hstep]
  | cons q front ih =>
    intro p suf found delim restRaw hfront hp
    have hq : matchHier q = none := hfront q (by simp)
    have ht := ih p suf found delim restRaw (fun r hr => hfront r (by simp [hr])) hp
    show renumberAux [] (q :: (front ++ p :: suf)) = _
    simp only [renumberAux, hq]
    rw [show renumberAux [] (front ++ p :: suf) =
      renumberHierarchical (front ++ p :: suf) from rfl, ht]
    rfl

/-- C3 witness: with one non-matching paragraph in front, the first matching
paragraph keeps its parsed path. -/
theorem C3_first_match_kept_witness :
    renumberHierarchical ["intro".toList, "6.2 a".toList] =
      ["intro".toList] ++
        (renderPath [6, 2] ++ [] ++ ' ' :: normStr "a".toList) ::
          renumberAux [6, 2] [] :=
  C3_first_match_kept ["intro".toList] "6.2 a".toList [] [6, 2] []
    "a".toList (by decide) (by decide)

theorem renumberAux_length :
    ∀ (current : List Nat) (ps : List (List Char)),
      (renumberAux current ps).length = ps.length := by
  intro current ps
  induction ps generalizing current with
  | nil => rfl
  | cons p ps ih =>
    cases hm : matchHier p with
    | none => simp [renumberAux, hm, ih]
    | some v =>
      obtain ⟨found, delim, restRaw⟩ := v
      simp [renumberAux, hm, ih]

theorem renumberAux_frame :
    ∀ (ps : List (List Char)) (current : List Nat) (i : Nat),
      matchHier (ps.getD i []) = none →
      (renumberAux current ps).getD i [] = ps.getD i [] := by
  intro ps
  induction ps with
  | nil => intro current i _; rfl
  | cons p ps ih =>
    intro current i hm
    cases i with
    | zero =>
      simp only [List.getD_cons_zero] at hm ⊢
      rw [renumberAux, hm]
      simp
    | succ j =>
      simp only [List.getD_cons_succ] at hm ⊢
      cases hp : matchHier p with
      | none => rw [renumberAux, hp]; simpa using ih current j hm
      | some v =>
        obtain ⟨found, delim, restRaw⟩ := v
        rw [renumberAux, hp]
        simpa using ih (stepPath current found) j hm

/-- C8: `renumberHierarchical` preserves length and order, and every
paragraph without a hierarchical numbering prefix is returned
character-for-character unchanged at its original position (so only
matching paragraphs are altered). -/
theorem C8_renumber_frame (ps : List (List Char)) :
    (renumberHierarchical ps).length = ps.length ∧
      ∀ i : Nat, matchHier (ps.getD i []) = none →
        (renumberHierarchical ps).getD i [] = ps.getD i [] :=
  ⟨renumberAux_length [] ps, fun i h => renumberAux_frame ps [] i h⟩

/-- C8 witness: a non-matching paragraph in a renumbered sequence is kept
unchanged at its position. -/
theorem C8_renumber_frame_witness :
    (renumberHierarchical ["x  y".toList, "6.1 a".toList]).getD 0 [] =
      ["x  y".toList, "6.1 a".toList].getD 0 [] :=
  (C8_renumber_frame ["x  y".toList, "6.1 a".toList]).2 0 (by decide)

theorem renderPath_cons {n : Nat} {e : List Nat} (h : e ≠ []) :
    renderPath (n :: e) = natDigits n ++ '.' :: renderPath e := by
  cases e with
  | nil => exact absurd rfl h
  | cons m ms => rfl

theorem renderPath_head {e : List Nat} (he : e ≠ []) :
    ∃ c cs, renderPath e = c :: cs ∧ isDigit c = true := by
  cases e with
  | nil => exact absurd rfl he
  | cons n ns =>
    obtain ⟨c, cs, hnd, hc⟩ := natDigits_head n
    cases ns with
    | nil => exact ⟨c, cs, by simpa [renderPath] using hnd, hc⟩
    | cons m ms =>
      refine ⟨c, cs ++ '.' :: renderPath (m :: ms), ?_, hc⟩
      rw [renderPath_cons (by simp), hnd]
      simp

theorem renderPath_length_ge : ∀ e : List Nat, e.length ≤ (renderPath e).length := by
  intro e
  induction e with
  | nil => simp [renderPath]
  | cons n ns ih =>
    cases ns with
    | nil =>
      have h1 : 0 < (natDigits n).length := List.length_pos.mpr (natDigits_ne_nil n)
      simpa [renderPath] using h1
    | cons m ms =>
      rw [renderPath_cons (by simp)]
      have h1 : 0 < (natDigits n).length := List.length_pos.mpr (natDigits_ne_nil n)
      simp only [List.length_append, List.length_cons] at ih ⊢
      omega

theorem parseGroupsAux_fst_ne_nil (fuel : Nat) (l : List Char) (h : 1 ≤ fuel) :
    (parseGroupsAux fuel l).1 ≠ [] := by
  cases fuel with
  | zero => omega
  | succ f =>
    simp only [parseGroupsAux]
    split
    · split <;> simp
    · simp

theorem parseGroupsAux_render :
    ∀ (e : List Nat) (delim rest : List Char) (fuel : Nat),
      e ≠ [] → e.length ≤ fuel →
      (delim = [] ∨ delim = ['.'] ∨ delim = [')']) →
      parseGroupsAux fuel (renderPath e ++ (delim ++ ' ' :: rest)) =
        (e, delim ++ ' ' :: rest) := by
  intro e
  induction e with
  | nil => intro delim rest fuel he _ _; exact absurd rfl he
  | cons n ns ih =>
    intro delim rest fuel _ hfuel hd
    obtain ⟨f, rfl⟩ : ∃ f, fuel = f + 1 := by
      cases fuel with
      | zero => simp at hfuel
      | succ f => exact ⟨f, rfl⟩
    cases ns with
    | nil =>
      have hall := natDigits_all_digit n
      rcases hd with rfl | rfl | rfl
      · have h2 := takeWhile_all_append (natDigits n) ' ' rest hall (by decide)
        simp only [renderPath, List.nil_append, parseGroupsAux, h2.1, h2.2,
          digitsToNat_natDigits]
        cases rest <;> rfl
      · have h2 := takeWhile_all_append (natDigits n) '.' (' ' :: rest) hall (by decide)
        simp only [renderPath, List.cons_append, List.nil_append, parseGroupsAux,
          h2.1, h2.2, digitsToNat_natDigits]
        rw [if_neg (by decide : ¬ isDigit ' ' = true)]
      · have h2 := takeWhile_all_append (natDigits n) ')' (' ' :: rest) hall (by decide)
        simp only [renderPath, List.cons_append, List.nil_append, parseGroupsAux,
          h2.1, h2.2, digitsToNat_natDigits]
        rfl
    | cons m ms =>
      have hne : (m :: ms : List Nat) ≠ [] := by simp
      obtain ⟨c, cs, hrp, hc⟩ := renderPath_head hne
      have hl : (renderPath (n :: m :: ms)) ++ (delim ++ ' ' :: rest) =
          natDigits n ++ '.' ::
            (renderPath (m :: ms) ++ (delim ++ ' ' :: rest)) := by
        rw [renderPath_cons hne]
        simp
      have h2 := takeWhile_all_append (natDigits n) '.'
        (renderPath (m :: ms) ++ (delim ++ ' ' :: rest))
        (natDigits_all_digit n) (by decide)
      have hrec := ih delim rest f hne (by
        simp only [List.length_cons] at hfuel ⊢; omega) hd
      rw [hl]
      simp only [parseGroupsAux, h2.1, h2.2]
      rw [hrp] at hrec ⊢
      rw [List.cons_append] at hrec
      simp only [List.cons_append, hc, if_true, digitsToNat_natDigits]
      rw [hrec]

theorem stepPath_nil_left (found : List Nat) : stepPath [] found = found := by
  simp [stepPath]

theorem stepPath_length {current found : List Nat} (hf : found ≠ []) :
    (stepPath current found).length = found.length := by
  by_cases hc : current = []
  · subst hc; simp [stepPath]
  · have hcl : 0 < current.length := List.length_pos.mpr hc
    have hfl : 0 < found.length := List.length_pos.mpr hf
    unfold stepPath
    rw [if_neg hc]
    by_cases h1 : found.length = current.length
    · rw [if_pos h1]; simp [List.length_take]; omega
    · rw [if_neg h1]
      by_cases h2 : found.length = current.length + 1
      · rw [if_pos h2]; simp [h2]
      · rw [if_neg h2]
        by_cases h3 : found.length < current.length
        · rw [if_pos h3]; simp [List.length_take]; omega
        · rw [if_neg h3]; simp; omega

theorem stepPath_congr_length {current f1 f2 : List Nat} (hc : current ≠ [])
    (h : f1.length = f2.length) : stepPath current f1 = stepPath current f2 := by
  unfold stepPath
  rw [if_neg hc, if_neg hc, h]

theorem matchHier_render (e : List Nat) (delim rest : List Char)
    (he : e ≠ []) (hd : delim = [] ∨ delim = ['.'] ∨ delim = [')'])
    (hr : ∀ c, rest.head? = some c → isWs c = false)
    (hn : rest.any isNL = false) :
    matchHier (renderPath e ++ (delim ++ ' ' :: rest)) = some (e, delim, rest) := by
  obtain ⟨c0, cs0, hrp, hc0⟩ := renderPath_head he
  have hlc : renderPath e ++ (delim ++ ' ' :: rest) =
      c0 :: (cs0 ++ (delim ++ ' ' :: rest)) := by rw [hrp]; simp
  have hdrop : (renderPath e ++ (delim ++ ' ' :: rest)).dropWhile isWs =
      renderPath e ++ (delim ++ ' ' :: rest) := by
    apply dropWhile_ws_fixed
    intro c hch
    rw [hlc] at hch
    simp only [List.head?_cons, Option.some.injEq] at hch
    subst hch
    exact isDigit_not_ws hc0
  have hlen : e.length ≤ (renderPath e ++ (delim ++ ' ' :: rest)).length := by
    have := renderPath_length_ge e
    simp only [List.length_append]
    omega
  have hpg := parseGroupsAux_render e delim rest
    ((renderPath e ++ (delim ++ ' ' :: rest)).length) he hlen hd
  have hrestdrop : rest.dropWhile isWs = rest := dropWhile_ws_fixed hr
  simp only [matchHier, hdrop]
  rw [hlc]
  simp only [← hlc, hc0, if_true, hpg]
  rcases hd with rfl | rfl | rfl
  · simp only [List.nil_append]
    have hsp : (' ' = '.' ∨ ' ' = ')') = False := by simp
    simp [hsp, List.dropWhile_cons, hrestdrop, hn, show isWs ' ' = true by decide]
  · simp [List.dropWhile_cons, hrestdrop, hn, show isWs ' ' = true by decide]
  · simp [List.dropWhile_cons, hrestdrop, hn, show isWs ' ' = true by decide]

theorem matchHier_inv {p : List Char} {f : List Nat} {d r : List Char}
    (h : matchHier p = some (f, d, r)) :
    f ≠ [] ∧ (d = [] ∨ d = ['.'] ∨ d = [')']) ∧
      (∀ c, r.head? = some c → isWs c = false) ∧ r.any isNL = false := by
  simp only [matchHier] at h
  split at h
  · exact absurd h (by simp)
  · rename_i c rest1 heq
    split at h
    · rename_i hdg
      have hne1 : 1 ≤ (p.dropWhile isWs).length := by rw [heq]; simp
      split at h
      · exact absurd h (by simp)
      · rename_i d0 r0 hpr2
        split at h
        · rename_i hd0
          split at h
          · exact absurd h (by simp)
          · rename_i w ws
            split at h
            · rename_i hw
              split at h
              · exact absurd h (by simp)
              · rename_i hnl
                rw [Option.some.injEq] at h
                simp only [Prod.mk.injEq] at h
                obtain ⟨h1, h2, h3⟩ := h
                refine ⟨?_, ?_, ?_, ?_⟩
                · rw [← h1]
                  exact parseGroupsAux_fst_ne_nil _ _ hne1
                · rcases hd0 with h | h
                  · right; left; rw [← h2, h]
                  · right; right; rw [← h2, h]
                · intro c hc
                  rw [← h3] at hc
                  exact head?_dropWhile_not hc
                · rw [← h3]
                  simpa using hnl
            · exact absurd h (by simp)
        · rename_i hd0
          split at h
          · rename_i hw
            split at h
            · exact absurd h (by simp)
            · rename_i hnl
              rw [Option.some.injEq] at h
              simp only [Prod.mk.injEq] at h
              obtain ⟨h1, h2, h3⟩ := h
              refine ⟨?_, ?_, ?_, ?_⟩
              · rw [← h1]
                exact parseGroupsAux_fst_ne_nil _ _ hne1
              · left; rw [← h2]
              · intro c hc
                rw [← h3] at hc
                exact head?_dropWhile_not hc
              · rw [← h3]
                simpa using hnl
          · exact absurd h (by simp)
    · exact absurd h (by simp)

theorem renumberAux_cons_none {current : List Nat} {p : List Char}
    {ps : List (List Char)} (h : matchHier p = none) :
    renumberAux current (p :: ps) = p :: renumberAux current ps := by
  simp only [renumberAux, h]

theorem renumberAux_cons_some {current : List Nat} {p : List Char}
    {ps : List (List Char)} {found : List Nat} {delim restRaw : List Char}
    (h : matchHier p = some (found, delim, restRaw)) :
    renumberAux current (p :: ps) =
      (renderPath (stepPath current found) ++ delim ++ ' ' :: normStr restRaw) ::
        renumberAux (stepPath current found) ps := by
  simp only [renumberAux, h]

theorem renumberAux_idem :
    ∀ (ps : List (List Char)) (current : List Nat),
      renumberAux current (renumberAux current ps) = renumberAux current ps := by
  intro ps
  induction ps with
  | nil => intro current; rfl
  | cons p ps ih =>
    intro current
    cases hm : matchHier p with
    | none =>
      rw [renumberAux_cons_none hm, renumberAux_cons_none hm, ih]
    | some v =>
      obtain ⟨found, delim, restRaw⟩ := v
      obtain ⟨hf, hd, _, _⟩ := matchHier_inv hm
      have he : stepPath current found ≠ [] := by
        apply List.ne_nil_of_length_pos
        rw [stepPath_length hf]
        exact List.length_pos.mpr hf
      have hre := matchHier_render (stepPath current found) delim (normStr restRaw)
        he hd (fun c hc => head?_normStr_not_ws hc)
        (any_isNL_of_allWsSp (allWsSp_normStr restRaw))
      have hstep2 : stepPath current (stepPath current found) =
          stepPath current found := by
        by_cases hc : current = []
        · subst hc
          rw [stepPath_nil_left, stepPath_nil_left]
        · exact stepPath_congr_length hc (stepPath_length hf)
      rw [renumberAux_cons_some hm]
      rw [show (renderPath (stepPath current found) ++ delim ++
          ' ' :: normStr restRaw : List Char) =
          renderPath (stepPath current found) ++ (delim ++ ' ' :: normStr restRaw)
        from List.append_assoc _ _ _]
      rw [renumberAux_cons_some hre]
      rw [hstep2, normStr_idem, ih, List.append_assoc]

/-- C10: `renumberHierarchical` is idempotent: the rewritten prefixes keep
the parsed depth and delimiter and the remaining text is normalized on the
first pass, so a second pass parses the same depths and produces the same
paths. -/
theorem C10_renumber_idem (ps : List (List Char)) :
    renumberHierarchical (renumberHierarchical ps) = renumberHierarchical ps :=
  renumberAux_idem ps []

theorem mem_map_normKey {ts : List (List Char)} {x : List Char} :
    (ts.map normKey).contains x = true ↔ ∃ q ∈ ts, normKey q = x := by
  rw [show (ts.map normKey).contains x = List.elem x (ts.map normKey) from rfl,
    List.elem_iff, List.mem_map]

theorem filter_contains_eq_filter_all (src other : List (List Char)) :
    src.filter (fun p => !((other.map normKey).contains (normKey p))) =
      src.filter (fun p => decide (∀ q ∈ other, normKey q ≠ normKey p)) := by
  apply List.filter_congr
  intro p _
  by_cases h : ∀ q ∈ other, normKey q ≠ normKey p
  · have hnc : (other.map normKey).contains (normKey p) = false := by
      cases hcc : (other.map normKey).contains (normKey p) with
      | false => rfl
      | true =>
        obtain ⟨q, hq, hqe⟩ := mem_map_normKey.mp hcc
        exact absurd hqe (h q hq)
    rw [hnc, decide_eq_true h]
    rfl
  · push_neg at h
    obtain ⟨q, hq, hqe⟩ := h
    have hc : (other.map normKey).contains (normKey p) = true :=
      mem_map_normKey.mpr ⟨q, hq, hqe⟩
    rw [hc, decide_eq_false (fun hall => hall q hq hqe)]
    rfl

/-- C4: `compareParagraphSets` returns, in order and with original casing,
exactly the reference paragraphs whose normalized form occurs nowhere in the
target and symmetrically for the target; consequently comparing a list with
itself yields two empty lists, and the case/whitespace-insensitive example
yields two empty lists. -/
theorem C4_compareParagraphSets :
    (∀ reference target : List (List Char),
      (compareParagraphSets reference target).missingInTarget =
        reference.filter (fun p => decide (∀ q ∈ target, normKey q ≠ normKey p)) ∧
      (compareParagraphSets reference target).extraInTarget =
        target.filter (fun p => decide (∀ q ∈ reference, normKey q ≠ normKey p))) ∧
      (∀ A : List (List Char), compareParagraphSets A A = ⟨[], []⟩) ∧
      compareParagraphSets ["Foo  bar".toList] ["foo bar".toList] = ⟨[], []⟩ := by
  refine ⟨fun reference target => ⟨?_, ?_⟩, fun A => ?_, by decide⟩
  · exact filter_contains_eq_filter_all reference target
  · exact filter_contains_eq_filter_all target reference
  · have hall : ∀ p ∈ A, ¬ ((!((A.map normKey).contains (normKey p))) = true) := by
      intro p hp
      have hc : (A.map normKey).contains (normKey p) = true :=
        mem_map_normKey.mpr ⟨p, hp, rfl⟩
      rw [hc]
      simp
    have h1 : A.filter (fun p => !((A.map normKey).contains (normKey p))) = [] :=
      List.filter_eq_nil_iff.mpr hall
    show CompareResult.mk _ _ = CompareResult.mk [] []
    rw [h1]

theorem fpMatches_iff (t p : List Char) : fpMatches t p = true ↔ fpSpecCond t p := by
  simp only [fpMatches, fpSpecCond, Bool.or_eq_true, List.isPrefixOf_iff_prefix,
    beq_iff_eq]
  tauto

theorem findAux_eq :
    ∀ (ps : List (List Char)) (t : List Char) (i : Nat),
      findAux t i ps =
        match ps.findIdx? (fun p => fpMatches t p) with
        | some j => ⟨(i : Int) + j, ps.getD j []⟩
        | none => ⟨-1, []⟩ := by
  intro ps
  induction ps with
  | nil => intro t i; simp [findAux, List.findIdx?_nil]
  | cons p ps ih =>
    intro t i
    by_cases hm : fpMatches t p = true
    · simp [findAux, hm, List.findIdx?_cons]
    · rw [show findAux t i (p :: ps) = findAux t (i + 1) ps by
        simp [findAux, hm], ih]
      rw [List.findIdx?_cons, if_neg (by simp [hm]), List.findIdx?_succ]
      cases h0 : ps.findIdx? (fun q => fpMatches t q) with
      | none => simp
      | some j =>
        simp only [Option.map_some', List.getD_cons_succ,
          ParagraphSearchResult.mk.injEq]
        constructor
        · push_cast; ring
        · trivial

/-- Characterization of the primary copy of `findParagraphByItemNumber`: a
linear scan returning the first paragraph that starts with the trimmed
item-number token followed by a space, a dot or a closing parenthesis or
equals it exactly, and index -1 with an empty paragraph when none
matches. -/
theorem findParagraph_spec (ps : List (List Char)) (num : List Char) :
    findParagraphByItemNumber ps num =
      match ps.findIdx? (fun p => decide (fpSpecCond (jsTrim num) p)) with
      | some j => ⟨(j : Int), ps.getD j []⟩
      | none => ⟨-1, []⟩ := by
  have hpred : (fun p => fpMatches (jsTrim num) p) =
      (fun p => decide (fpSpecCond (jsTrim num) p)) := by
    funext p
    by_cases h : fpSpecCond (jsTrim num) p
    · rw [(fpMatches_iff (jsTrim num) p).mpr h, decide_eq_true h]
    · rw [decide_eq_false h]
      cases hfm : fpMatches (jsTrim num) p with
      | false => rfl
      | true => exact absurd ((fpMatches_iff (jsTrim num) p).mp hfm) h
  rw [findParagraphByItemNumber, findAux_eq, hpred]
  cases ps.findIdx? (fun p => decide (fpSpecCond (jsTrim num) p)) with
  | none => rfl
  | some j => simp

/-- C7 counterexample: the repository's revised copy of
`findParagraphByItemNumber` matches a paragraph under a condition the claim
excludes — a bare case-insensitive prefix with no delimiter: searching "1"
in ["10 apples"] returns index 0 although "10 apples" neither starts with
"1" followed by a space, a dot or a closing parenthesis nor equals "1". -/
theorem C7_counterexample :
    findParagraphByItemNumberRev ["10 apples".toList] "1".toList =
        ⟨0, "10 apples".toList⟩ ∧
      ¬ fpSpecCond (jsTrim "1".toList) "10 apples".toList :=
  ⟨by decide, by decide⟩

/-- C7 (amended): the primary copy of `findParagraphByItemNumber` performs
a linear scan and returns the index and text of the first paragraph that
begins with the trimmed item-number token followed by a space, a dot or a
closing parenthesis or equals it exactly, and returns index -1 with an
empty paragraph when no paragraph matches; the revised copy is more
permissive: besides such delimited matches (also after leading whitespace
and case-insensitively) it matches any paragraph of which the token is a
bare case-insensitive prefix, with no delimiter required. -/
theorem C7_findParagraphByItemNumber :
    (∀ (ps : List (List Char)) (num : List Char),
      findParagraphByItemNumber ps num =
        match ps.findIdx? (fun p => decide (fpSpecCond (jsTrim num) p)) with
        | some j => ⟨(j : Int), ps.getD j []⟩
        | none => ⟨-1, []⟩) ∧
      findParagraphByItemNumberRev ["x".toList, "7) b".toList] "7".toList =
        ⟨1, "7) b".toList⟩ ∧
      findParagraphByItemNumberRev ["  6. item".toList] "6".toList =
        ⟨0, "  6. item".toList⟩ ∧
      findParagraphByItemNumberRev ["ITEM one".toList] "item".toList =
        ⟨0, "ITEM one".toList⟩ ∧
      findParagraphByItemNumberRev ["10 apples".toList] "1".toList =
        ⟨0, "10 apples".toList⟩ ∧
      findParagraphByItemNumberRev ["xyz".toList] "7".toList = ⟨-1, []⟩ :=
  ⟨findParagraph_spec, by decide, by decide, by decide, by decide, by decide⟩

theorem mainTextF_liSimple {fuel : Nat} (h : 2 ≤ fuel) (t : List Char) :
    mainTextF fuel (liSimple t) = t := by
  obtain ⟨f, rfl⟩ : ∃ f, fuel = f + 2 := ⟨fuel - 2, by omega⟩
  show mainTextF (f + 2) (liSimple t) = t
  simp [mainTextF, liSimple, tagLi, tagOl, tagUl]

theorem olLoop_simple :
    ∀ (ts : List (List Char)) (fuel : Nat)
      (pOl : HNode → List JsNum → List (List Char)) (k : Int) (stack : List JsNum),
      2 ≤ fuel →
      olLoop fuel pOl (ts.map liSimple) (some k) stack = simpleNumsSpec stack k ts := by
  intro ts
  induction ts with
  | nil => intro fuel pOl k stack _; rfl
  | cons t ts ih =>
    intro fuel pOl k stack hf
    have hmt := mainTextF_liSimple hf t
    have e1 : attrOr (nodeValue (liSimple t)) (jsAdd (some k) 1) = some (k + 1) := rfl
    have e2 : childTag tagOl (liSimple t) = [] := rfl
    have e3 : childTag tagUl (liSimple t) = [] := rfl
    have e4 : nodeTag (liSimple t) = tagLi := rfl
    show olLoop fuel pOl (liSimple t :: ts.map liSimple) (some k) stack = _
    simp only [olLoop, e1, e2, e3, e4, liMainText, hmt, List.map_nil,
      List.flatten_nil, List.filter_nil, List.nil_append, List.append_nil,
      if_pos rfl]
    rw [ih fuel pOl (k + 1) stack hf]
    rfl

/-- C5: the numbering synthesizer assigns each direct list item the next
running integer, renders the parent prefix plus that integer dot-joined,
prepends it (with a space) to the item's normalized main text, emitting only
when that text is non-empty; and the nested two-level example yields
paragraphs numbered 1, 1.1 and 2 matching structural nesting. -/
theorem C5_numbering_synthesis :
    (∀ (ts : List (List Char)) (fuel : Nat)
        (pOl : HNode → List JsNum → List (List Char)) (k : Int) (stack : List JsNum),
        2 ≤ fuel →
        olLoop fuel pOl (ts.map liSimple) (some k) stack = simpleNumsSpec stack k ts) ∧
      extractParagraphs 10
          (HNode.elem ['d', 'i', 'v'] none none
            [HNode.elem tagOl none none
              [HNode.elem tagLi none none
                [HNode.text "a".toList,
                 HNode.elem tagOl none none
                   [HNode.elem tagLi none none [HNode.text "b".toList]]],
               HNode.elem tagLi none none [HNode.text "c".toList]]]) =
        ["1 a".toList, "1.1 b".toList, "2 c".toList] :=
  ⟨olLoop_simple, by decide⟩

/-- C5 witness: the synthesizer at a concrete item list and counter. -/
theorem C5_numbering_synthesis_witness :
    olLoop 2 (fun _ _ => []) ([['x']].map liSimple) (some 0) [] =
      simpleNumsSpec [] 0 [['x']] :=
  C5_numbering_synthesis.1 [['x']] 2 (fun _ _ => []) 0 [] (by decide)

/-- C6 counterexample: a present but malformed (non-numeric) `start`
attribute does not fall back to the default counter value; `parseInt`
produces NaN, which propagates into the emitted numbering. -/
theorem C6_counterexample :
    processOl 5 (HNode.elem tagOl (some ['x']) none [liSimple ['a']]) [] =
        [['N', 'a', 'N', ' ', 'a']] ∧
      processOl 5 (HNode.elem tagOl (some ['x']) none [liSimple ['a']]) [] ≠
        [['1', ' ', 'a']] :=
  ⟨by decide, by decide⟩

theorem processOl_start (s : List Char) (k : Int) (ts : List (List Char))
    (stack : List JsNum) (fuel : Nat) (hs : s ≠ []) (hp : parseIntJS s = some k)
    (hf : 3 ≤ fuel) :
    processOl fuel (HNode.elem tagOl (some s) none (ts.map liSimple)) stack =
      simpleNumsSpec stack (k - 1) ts := by
  obtain ⟨f, rfl⟩ : ∃ f, fuel = f + 1 := ⟨fuel - 1, by omega⟩
  have hec : elemChildren (HNode.elem tagOl (some s) none (ts.map liSimple)) =
      ts.map liSimple := by
    apply List.filter_eq_self.mpr
    intro x hx
    obtain ⟨t, _, rfl⟩ := List.mem_map.mp hx
    rfl
  have hst : attrOr (nodeStart (HNode.elem tagOl (some s) none (ts.map liSimple)))
      (some 1) = some k := by
    simp [attrOr, nodeStart, hs, hp]
  have hj : jsAdd (some k) (-1) = some (k - 1) := by
    simp [jsAdd]
    ring
  simp only [processOl, hec, hst, hj]
  exact olLoop_simple ts (f + 1) _ (k - 1) stack (by omega)

/-- C6 (amended): the synthesizer is total over attribute values, a present
non-empty `start` attribute that parses to an integer k starts the running
counter at k, a per-item `value` attribute sets and resets the counter, and
an absent or empty attribute falls back to the default; but a malformed
(non-numeric) attribute yields NaN, which propagates into the emitted
numbering instead of falling back, and non-positive values are used as-is. -/
theorem C6_amended :
    (∀ (s : List Char) (k : Int) (ts : List (List Char)) (stack : List JsNum)
        (fuel : Nat), s ≠ [] → parseIntJS s = some k → 3 ≤ fuel →
        processOl fuel (HNode.elem tagOl (some s) none (ts.map liSimple)) stack =
          simpleNumsSpec stack (k - 1) ts) ∧
      processOl 5 (HNode.elem tagOl none none
          [liSimple ['a'],
           HNode.elem tagLi none (some ['5']) [HNode.text ['b']],
           liSimple ['c']]) [] =
        [['1', ' ', 'a'], ['5', ' ', 'b'], ['6', ' ', 'c']] ∧
      processOl 5 (HNode.elem tagOl (some []) none [liSimple ['a']]) [] =
        [['1', ' ', 'a']] ∧
      processOl 5 (HNode.elem tagOl (some ['x']) none
          [liSimple ['a'], liSimple ['b']]) [] =
        [['N', 'a', 'N', ' ', 'a'], ['N', 'a', 'N', ' ', 'b']] ∧
      processOl 5 (HNode.elem tagOl (some ['0']) none [liSimple ['a']]) [] =
        [['0', ' ', 'a']] :=
  ⟨processOl_start, by decide, by decide, by decide, by decide⟩

/-- C6 witness: a parseable `start` attribute of 3 numbers two items 3, 4. -/
theorem C6_amended_witness :
    processOl 5 (HNode.elem tagOl (some ['3']) none ([['a'], ['b']].map liSimple)) [] =
      simpleNumsSpec [] ((3 : Int) - 1) [['a'], ['b']] :=
  C6_amended.1 ['3'] 3 [['a'], ['b']] [] 5 (by decide) (by decide) (by decide)

end DocxWiz
